import Mathlib

/-!
Verification of the routstr web-RAG retrieval pipeline.

This file gives a shallow embedding of the core retrieval-and-ranking pipeline
of the repository (`src/routstr/websearch/`) and proves (or refutes) the frozen
claims about it.  Python strings are modelled as `List Char` (one element per
code point, so Python `len` is `List.length`), bytes as `List Nat`, Python
`None`-able values as `Option`, and Python exceptions as `Except`/`Option`
results.  External libraries (the `rank_bm25` scorer, the `json` module, the
HTTP client, the extraction libraries) are modelled as explicit function
parameters at their call boundary; everything else is translated directly from
the source.
-/

namespace Routstr

/-- Python strings are modelled as lists of characters. -/
abbrev Text := List Char

/-- Python byte strings are modelled as lists of byte values. -/
abbrev Bytes := List Nat

/-- Whitespace in the sense of Python's `str.strip` / the regex class `\s`
(restricted to the ASCII range: space, tab, newline, carriage return,
vertical tab, form feed; the Unicode whitespace characters behave
identically in every place this predicate is used). -/
def pyWS (c : Char) : Bool :=
  c == ' ' || c == '\t' || c == '\n' || c == '\r' ||
  c == Char.ofNat 11 || c == Char.ofNat 12

/-- A Python string is falsy after `.strip()` exactly when all of its
characters are whitespace (this also covers the empty string). -/
def isAllWS (l : Text) : Bool := l.all pyWS

/-- The non-whitespace characters of a string, in order. -/
def filterNW (l : Text) : Text := l.filter (fun c => !(pyWS c))

/-- Python `str.strip()`: drop whitespace from both ends. -/
def pyStrip (l : Text) : Text :=
  (((l.dropWhile pyWS).reverse).dropWhile pyWS).reverse

/-! ## Data model (`src/routstr/websearch/types.py`) -/

/-- The `WebPage` dataclass of `types.py`: content retrieved from a single URL.
The Python `float` field `relevance_score` is modelled over `ℚ`; it is never
read by any operation verified here. -/
structure WebPage where
  url : Text
  title : Option Text := none
  summary : Option Text := none
  publication_date : Option Text := none
  relevance_score : Option ℚ := none
  content : Option Text := none
  chunks : Option (List Text) := none
deriving DecidableEq, Repr

/-- The `SearchResult` dataclass of `types.py`. -/
structure SearchResult where
  query : Text
  webpages : List WebPage
  summary : Option Text := none
  timestamp : Option Text := none
  time_ms : List (Text × Nat) := []
deriving DecidableEq, Repr

/-! ## BM25 ranker (`src/routstr/websearch/BM25WebRank.py`)

The external library `rank_bm25` computes one floating-point BM25 score per
document from the tokenized corpus and the tokenized query; a document's score
depends only on its own token list, the corpus-wide statistics and the query.
It is modelled as an explicit scoring parameter
`scoreFn : corpusTokens → queryTokens → docTokens → ℚ`, and
`BM25Okapi(corpus).get_top_n(query, docs, n=len(docs))` as a stable ascending
argsort of the scores followed by `[::-1]` (numpy's `argsort` on these small
arrays is a stable sort, and reversing it puts the documents in descending
score order). -/

/-- The character class of Python's `string.punctuation`
(ASCII 33–47, 58–64, 91–96, 123–126). -/
def isPunct (c : Char) : Bool :=
  (33 ≤ c.toNat && c.toNat ≤ 47) || (58 ≤ c.toNat && c.toNat ≤ 64) ||
  (91 ≤ c.toNat && c.toNat ≤ 96) || (123 ≤ c.toNat && c.toNat ≤ 126)

/-- The `tokenize` helper of `BM25WebRank._sort_chunks`: lowercase, strip
punctuation, split on whitespace (Python `str.split()` with no separator drops
empty pieces). -/
def tokenize (text : Text) : List Text :=
  (((text.map Char.toLower).filter (fun c => !(isPunct c))).splitOnP pyWS).filter
    (fun w => w ≠ [])

/-- Stable insertion of a `(score, index)` pair into an ascending list:
an element is placed before the first element of greater-or-equal score, so
sorting with it is stable. -/
def insertPair (x : ℚ × Nat) : List (ℚ × Nat) → List (ℚ × Nat)
  | [] => [x]
  | y :: ys => if x.1 ≤ y.1 then x :: y :: ys else y :: insertPair x ys

/-- Stable ascending sort of `(score, index)` pairs by score. -/
def sortPairs : List (ℚ × Nat) → List (ℚ × Nat)
  | [] => []
  | x :: xs => insertPair x (sortPairs xs)

/-- Indices `0, …, n-1` sorted stably by ascending score: `np.argsort(scores)`. -/
def argsortAsc (scores : List ℚ) : List Nat :=
  (sortPairs (scores.zip (List.range scores.length))).map (fun p => p.2)

/-- The `get_top_n` method of `rank_bm25`: `np.argsort(scores)[::-1][:n]`
indexed back into the documents. -/
def getTopN (scores : List ℚ) (docs : List Text) (n : Nat) : List Text :=
  ((argsortAsc scores).reverse.take n).filterMap (fun i => docs[i]?)

/-- The scoring backend: given the tokenized corpus, the tokenized query and
one tokenized document of the corpus, produce that document's BM25 score. -/
abbrev ScoreFn := List (List Text) → List Text → List Text → ℚ

/-- The `_sort_chunks` method of `BM25WebRank`: tokenize corpus and query,
score every chunk, and return all chunks sorted by descending score. -/
def sortChunks (scoreFn : ScoreFn) (query : Text) (chunks : List Text) : List Text :=
  if chunks.isEmpty then []
  else
    let tokCorpus := chunks.map tokenize
    let tokQuery := tokenize query
    let scores := tokCorpus.map (scoreFn tokCorpus tokQuery)
    getTopN scores chunks chunks.length

/-- The loop body of `_rank_local` for one page: pages whose `chunks` is
`None` or the empty list (both falsy under `if not page.chunks`) pass through
unchanged; otherwise the page's chunks are replaced by the top `topK` of the
sorted chunks. -/
def rankLocalPage (scoreFn : ScoreFn) (query : Text) (topK : Nat)
    (page : WebPage) : WebPage :=
  match page.chunks with
  | none => page
  | some [] => page
  | some cs => { page with chunks := some ((sortChunks scoreFn query cs).take topK) }

/-- The `_rank_local` method: sort and prune chunks within each page
independently. -/
def rankLocal (scoreFn : ScoreFn) (query : Text) (topK : Nat)
    (sr : SearchResult) : SearchResult :=
  { sr with webpages := sr.webpages.map (rankLocalPage scoreFn query topK) }

/-- The projection loop body of `_rank_global` for one page: keep exactly the
chunks that are members of the winners set (`winners_set` membership is
string equality, so it is list membership in the winners list); falsy chunk
lists pass through unchanged. -/
def rankGlobalPage (winners : List Text) (page : WebPage) : WebPage :=
  match page.chunks with
  | none => page
  | some [] => page
  | some cs => { page with chunks := some (cs.filter (fun c => winners.contains c)) }

/-- The `_rank_global` method: pool all (truthy) chunk lists, take the global
top `totalK` winners, and project the winners back onto each page. -/
def rankGlobal (scoreFn : ScoreFn) (query : Text) (totalK : Nat)
    (sr : SearchResult) : SearchResult :=
  let allCandidates := (sr.webpages.map (fun p => p.chunks.getD [])).flatten
  if allCandidates.isEmpty then sr
  else
    let winners := (sortChunks scoreFn query allCandidates).take totalK
    { sr with webpages := sr.webpages.map (rankGlobalPage winners) }

/-- The hard-coded `self.global_k = 20` of `BM25WebRank.__init__`. -/
def globalK : Nat := 20

/-- The `rank` method of `BM25WebRank`: if the `rank_bm25` library is
unavailable or there are no pages, return the result unchanged; otherwise run
the local pass (with `local_k = max_chunks_per_source`) and then the global
pass (with the hard-coded `global_k = 20`).  The statistics dictionary and the
printed report are side effects with no influence on the returned value and
are not modelled. -/
def bm25Rank (scoreFn : ScoreFn) (available : Bool) (localK : Nat)
    (sr : SearchResult) (query : Text) : SearchResult :=
  if !available || sr.webpages.isEmpty then sr
  else rankGlobal scoreFn query globalK (rankLocal scoreFn query localK sr)

/-! ## Fixed-size chunker (`src/routstr/websearch/FixedSizeChunker.py`)

The `while start < text_length` loop of `chunk_text` is modelled with explicit
fuel: `fixedLoop … fuel …` returns `none` when the fuel runs out, so a result
of `none` for every fuel amount is non-termination of the Python loop. -/

/-- Append `tail` to the last chunk of a non-empty chunk list
(`chunks[-1] += remaining_text`). -/
def appendToLast (chunks : List Text) (tail : Text) : List Text :=
  match chunks with
  | [] => []
  | [c] => [c ++ tail]
  | c :: rest => c :: appendToLast rest tail

/-- One-loop-at-a-time model of the `while start < text_length` loop of
`FixedSizeChunker.chunk_text`.  In one iteration: if `end > text_length` and
chunks exist and the remaining text is shorter than 30 percent of
`chunk_size`, merge it into the previous chunk and stop (the float comparison
`len(remaining) < chunk_size * 0.3` is modelled as the exact rational
comparison `10 * remaining < 3 * cs`); otherwise emit `text[start:end]`,
set `start = end - overlap` (an `int`, so `start ≤ 0` exactly when
`end ≤ overlap`), and reset `start` to `chunk_size` when `start ≤ 0`. -/
def fixedLoop (cs ov : Nat) (text : Text) : Nat → Nat → List Text → Option (List Text)
  | 0, _, _ => none
  | fuel + 1, start, chunks =>
    if start < text.length then
      let e := start + cs
      if text.length < e ∧ chunks ≠ [] ∧ 10 * (text.length - start) < 3 * cs then
        some (appendToLast chunks (text.drop start))
      else
        let chunk := (text.drop start).take cs
        let start' := if e ≤ ov then cs else e - ov
        fixedLoop cs ov text fuel start' (chunks ++ [chunk])
    else some chunks

/-- The `chunk_text` method of `FixedSizeChunker`: empty/whitespace-only text
yields `[]`; text no longer than `chunk_size` is a single chunk; otherwise the
sliding-window loop runs (with the given fuel bounding its iteration count). -/
def fixedChunkText (cs ov fuel : Nat) (text : Text) : Option (List Text) :=
  if isAllWS text then some []
  else if text.length ≤ cs then some [text]
  else fixedLoop cs ov text fuel 0 []

/-! ## Recursive chunker (`src/routstr/websearch/RecursiveChunker.py`) -/

/-- Prepend a character to the first piece of a piece list (used by the
character-level splitters to build pieces front to back). -/
def consHead (c : Char) : List Text → List Text
  | [] => [[c]]
  | p :: ps => (c :: p) :: ps

/-- Python `text.split(sep)` for a single-character separator: every
occurrence of `sep` separates two (possibly empty) pieces. -/
def splitOnChar (sep : Char) : Text → List Text
  | [] => [[]]
  | c :: rest =>
    if c = sep then [] :: splitOnChar sep rest
    else consHead c (splitOnChar sep rest)

/-- For the regex `\n\s*\n` with the leading `\n` already consumed: the index
of the last `\n` inside the maximal whitespace prefix of `l` (the greedy
`\s*` backtracks to the last possible closing `\n`), or `none` when the match
fails. -/
def lastNLin : Text → Option Nat
  | [] => none
  | c :: rest =>
    if pyWS c then
      match lastNLin rest with
      | some k => some (k + 1)
      | none => if c = '\n' then some 0 else none
    else none

/-- The scanner of `re.split(r"\n\s*\n", text)`: at each `\n`, if the
following maximal whitespace run contains another `\n`, the match extends to
the last such `\n` and a piece boundary is emitted; the fuel is the length of
the text (each step consumes at least one character and one unit of fuel). -/
def splitParaF : Nat → Text → List Text
  | 0, l => [l]
  | _ + 1, [] => [[]]
  | fuel + 1, c :: rest =>
    if c = '\n' then
      match lastNLin rest with
      | some k => [] :: splitParaF fuel (rest.drop (k + 1))
      | none => consHead c (splitParaF fuel rest)
    else consHead c (splitParaF fuel rest)

/-- `re.split(r"\n\s*\n", text)`. -/
def splitPara (l : Text) : List Text := splitParaF l.length l

/-- The scanner of `re.split(r"(?<=[.!?]) +", text)`: a maximal run of spaces
preceded by `.`, `!` or `?` is a separator (the punctuation stays on the left
piece); the previous character is threaded for the lookbehind. -/
def splitSentF : Nat → Option Char → Text → List Text
  | 0, _, l => [l]
  | _ + 1, _, [] => [[]]
  | fuel + 1, prev, c :: rest =>
    if (prev = some '.' ∨ prev = some '!' ∨ prev = some '?') ∧ c = ' ' then
      [] :: splitSentF fuel (some ' ') (rest.dropWhile (fun d => d = ' '))
    else consHead c (splitSentF fuel (some c) rest)

/-- `re.split(r"(?<=[.!?]) +", text)`. -/
def splitSent (l : Text) : List Text := splitSentF l.length none l

/-- The hard cut of `_split_recursive` when every separator is exhausted:
`[text[i : i + chunk_size] for i in range(0, len(text), chunk_size)]`
(fuel-driven; faithful for `chunk_size > 0`, which the constructor enforces). -/
def hardCutF (cs : Nat) : Nat → Text → List Text
  | 0, _ => []
  | _ + 1, [] => []
  | fuel + 1, l => l.take cs :: hardCutF cs fuel (l.drop cs)

/-- Hard cut into `chunk_size`-character pieces. -/
def hardCut (cs : Nat) (l : Text) : List Text := hardCutF cs l.length l

/-- The `_join_pieces` helper: rejoin buffered pieces with the separator's
natural joiner (`"\n\n"`, `"\n"`, otherwise a single space). -/
def joinPieces (sep : Text) (pieces : List Text) : Text :=
  if sep = ['\n', '\n'] then List.intercalate ['\n', '\n'] pieces
  else if sep = ['\n'] then List.intercalate ['\n'] pieces
  else List.intercalate [' '] pieces

/-- Flush the buffer into the finished chunk list
(`if buffer: final_chunks.append(self._join_pieces(buffer, current_sep))`). -/
def flushBuf (sep : Text) (chunks : List Text) (buffer : List Text) : List Text :=
  if buffer.isEmpty then chunks else chunks ++ [joinPieces sep buffer]

/-- One iteration of the packing loop of `_split_recursive` over the state
`(final_chunks, buffer, buffer_len)`: an oversized piece flushes the buffer
and is split recursively with the remaining separators (`recur`); otherwise
the piece is appended to the buffer when `buffer_len + len(piece) +
(1 if buffer else 0)` still fits in `chunk_size`, and starts a fresh buffer
after a flush when it does not. -/
def packStep (cs : Nat) (sep : Text) (recur : Text → List Text)
    (st : List Text × List Text × Nat) (piece : Text) : List Text × List Text × Nat :=
  let (chunks, buffer, blen) := st
  if cs < piece.length then
    (flushBuf sep chunks buffer ++ recur piece, [], 0)
  else
    let potential := blen + piece.length + (if buffer.isEmpty then 0 else 1)
    if potential ≤ cs then (chunks, buffer ++ [piece], potential)
    else (flushBuf sep chunks buffer, [piece], piece.length)

/-- The whole packing loop of `_split_recursive`, including the final flush. -/
def packLoop (cs : Nat) (sep : Text) (recur : Text → List Text)
    (splits : List Text) : List Text :=
  let st := splits.foldl (packStep cs sep recur) ([], [], 0)
  flushBuf sep st.1 st.2.1

/-- The sentinel string `"SENTENCE_END"` of the separator hierarchy. -/
def sentinelSent : Text := "SENTENCE_END".toList

/-- The `_split_recursive` method: text that fits is one chunk; with no
separators left, hard cut; otherwise split on the current separator, drop
whitespace-only pieces (`[s for s in splits if s.strip()]`), fall through to
the next separator when at most one piece remains, and otherwise run the
packing loop, recursing into oversized pieces with the remaining separators.
The recursion is structural on the separator list, exactly as in the source
(every recursive call uses `separators[1:]`). -/
def splitRecursive (cs : Nat) : List Text → Text → List Text
  | [], text =>
    if text.length ≤ cs then [text] else hardCut cs text
  | sep :: rest, text =>
    if text.length ≤ cs then [text]
    else
      let splits0 :=
        if sep = sentinelSent then splitSent text
        else if sep = ['\n', '\n'] then splitPara text
        else if sep = ['\n'] then splitOnChar '\n' text
        else splitOnChar ' ' text
      let splits := splits0.filter (fun s => !(isAllWS s))
      if splits.length ≤ 1 then splitRecursive cs rest text
      else packLoop cs sep (fun t => splitRecursive cs rest t) splits

/-- The `_apply_overlap` method: every chunk after the first is prefixed with
the last `chunk_overlap` characters of the previous chunk of the original
list (`chunks[i-1][-overlap:]`, which for a positive overlap is the last
`min overlap len` characters). -/
def applyOverlap (ov : Nat) (chunks : List Text) : List Text :=
  match chunks with
  | [] => []
  | c :: rest =>
    c :: (rest.zip chunks).map (fun p => (p.2.drop (p.2.length - ov)) ++ p.1)

/-- The `re.sub(r"[ \t]+", " ", text)` normalization: every maximal run of
spaces and tabs becomes a single space (the flag records whether the previous
character was part of such a run). -/
def normAux : Bool → Text → Text
  | _, [] => []
  | inRun, c :: rest =>
    if c = ' ' ∨ c = '\t' then
      if inRun then normAux true rest else ' ' :: normAux true rest
    else c :: normAux false rest

/-- Normalize runs of spaces and tabs to single spaces. -/
def normalizeSpaces (l : Text) : Text := normAux false l

/-- The separator hierarchy `["\n\n", "\n", "SENTENCE_END", " "]`. -/
def sepHierarchy : List Text := [['\n', '\n'], ['\n'], sentinelSent, [' ']]

/-- The `chunk_text` method of `RecursiveChunker`: empty or whitespace-only
text yields `[]`; otherwise the text is normalized and stripped, returned
whole when it fits, and recursively split otherwise, with overlap applied when
`chunk_overlap > 0` and more than one chunk was produced. -/
def recChunkText (cs ov : Nat) (text : Text) : List Text :=
  if isAllWS text then []
  else
    let t := pyStrip (normalizeSpaces text)
    if t.length ≤ cs then [t]
    else
      let raw := splitRecursive cs sepHierarchy t
      if 0 < ov ∧ 1 < raw.length then applyOverlap ov raw else raw

/-! ## Batch scraping (`src/routstr/websearch/BaseWebScrape.py`)

The abstract per-page fetch `scrape_url` either returns a page or raises; it
is modelled as a function into `Except`.  `asyncio.gather` returns the task
results in task-creation order regardless of completion order, so the batch is
the in-order map of the per-page wrapper. -/

/-- The `_bounded_scrape` closure of `scrape_webpages`: run `scrape_url` and
return the original page unchanged when it raises
(`except Exception: return page`).  The semaphore only bounds concurrency and
has no effect on the returned value. -/
def boundedScrape (scrapeUrlF : WebPage → Except Text WebPage) (page : WebPage) : WebPage :=
  match scrapeUrlF page with
  | .ok p => p
  | .error _ => page

/-- The `scrape_webpages` method of `BaseWebScrape`: gather the per-page
results in input order (with `return_exceptions=True`, but every task result
is a `WebPage` because `_bounded_scrape` catches all exceptions), then keep
the results that are `WebPage` instances. -/
def scrapeWebpages (scrapeUrlF : WebPage → Except Text WebPage)
    (pages : List WebPage) : List WebPage :=
  let results : List (Except Text WebPage) :=
    pages.map (fun p => .ok (boundedScrape scrapeUrlF p))
  results.filterMap (fun r => match r with | .ok p => some p | .error _ => none)

/-! ## Single-URL scraping (`src/routstr/websearch/DefaultWebScraper.py`) -/

/-- The parts of an `httpx` response read by `DefaultWebScraper.scrape_url`:
the `content-type` header (`headers.get("content-type", "")`), the parsed
`content-length` header (`int(headers.get("content-length", 0))`; absent
means `0`), and the fully buffered body bytes returned by `response.aread()`. -/
structure HttpResponse where
  contentTypeHeader : Option Text := none
  contentLengthHeader : Option Nat := none
  body : Bytes := []
deriving DecidableEq, Repr

/-- The `scrape_url` method of `DefaultWebScraper`.  `fetch` is the outcome of
`client.get(url)` (`none` when the request raises, e.g. a timeout), `decode`
models `bytes.decode("utf-8", errors="replace")` and `extract` models
`extract_content` (which falls back to the raw HTML and never returns `None`
on the reachable paths).  Every raised `ScrapeFailureError` or transport error
is caught by the single handler and yields `None`:
1. URLs of 200 or more characters are rejected before any network call;
2. the declared content type must start with `text/html` or `text/plain`;
3. the declared `content-length` must not exceed 5,000,000 — the body itself
   is then read in full with `aread()` whatever its actual size;
4. bodies containing a NUL byte are rejected;
5. the decoded body is handed to the extractor. -/
def scrapeUrl (decode : Bytes → Text) (extract : Text → Text → Option Text)
    (url : Text) (fetch : Option HttpResponse) : Option Text :=
  if 200 ≤ url.length then none
  else
    match fetch with
    | none => none
    | some r =>
      let ct := (r.contentTypeHeader.getD []).map Char.toLower
      if !(List.isPrefixOf "text/html".toList ct || List.isPrefixOf "text/plain".toList ct) then
        none
      else if 5000000 < r.contentLengthHeader.getD 0 then none
      else if r.body.contains 0 then none
      else extract (decode r.body) url

/-! ## Context injection (`src/routstr/websearch/WebManager.py`) -/

/-- A `{role, content}` entry of the request body's `messages` array (the
claims about injection only concern well-formed message objects). -/
structure ChatMessage where
  role : Text
  content : Text
deriving DecidableEq, Repr

/-- The JSON request body after parsing: its `messages` array plus the other
top-level fields, carried through re-serialization unchanged (modelled
opaquely). -/
structure RequestData where
  messages : List ChatMessage
  rest : Text := []
deriving DecidableEq, Repr

/-- The reverse scan of `_inject_web_context_into_request`
(`for i in range(len(messages) - 1, -1, -1): if role == "user": break`):
the index of the last message whose role is `"user"`, or `none`
(`last_user_index == -1`) when there is none. -/
def lastUserIndex (msgs : List ChatMessage) : Option Nat :=
  match msgs with
  | [] => none
  | m :: rest =>
    match lastUserIndex rest with
    | some k => some (k + 1)
    | none => if m.role = "user".toList then some 0 else none

/-- The insertion step: `messages.insert(last_user_index, msg)` when a user
message exists (CPython list insertion at index `k` is
`take k ++ [msg] ++ drop k`), else `messages.append(msg)`. -/
def injectMessages (msgs : List ChatMessage) (m : ChatMessage) : List ChatMessage :=
  match lastUserIndex msgs with
  | some k => msgs.take k ++ m :: msgs.drop k
  | none => msgs ++ [m]

/-- The `_inject_web_context_into_request` method.  `loads` models
`json.loads(request_body.decode("utf-8"))` (together: `none` when decoding or
parsing raises), `dumps` models `json.dumps(...).encode("utf-8")` and
`genCtx` models `_generate_xml_context` (its output string is opaque to the
claims).  A falsy or page-less search result short-circuits; a body that
fails to parse is returned unchanged with an empty sources map by the
`except` handlers (`JSONDecodeError` and `Exception` cover every exception
raised inside the `try`); otherwise a fresh system message holding the
context is inserted before the last user message and the body is
re-serialized, returned with the 1-based source map
`{str(i): page.url}`. -/
def injectWebContext (loads : Bytes → Option RequestData) (dumps : RequestData → Bytes)
    (genCtx : SearchResult → Text → Text) (requestBody : Bytes)
    (searchResult : Option SearchResult) (query : Text) :
    Bytes × List (Text × Text) :=
  match searchResult with
  | none => (requestBody, [])
  | some r =>
    if r.webpages.isEmpty then (requestBody, [])
    else
      let sources := r.webpages.enum.map (fun p => (Nat.toDigits 10 (p.1 + 1), p.2.url))
      match loads requestBody with
      | none => (requestBody, [])
      | some data =>
        let webContextMessage : ChatMessage :=
          { role := "system".toList, content := genCtx r query }
        let msgs := injectMessages data.messages webContextMessage
        (dumps { data with messages := msgs }, sources)

/-! ## Pipeline availability (`src/routstr/websearch/CustomRAG.py`) -/

/-- The `check_availability` method of `CustomRAG`.  `searchProbe` is the
search provider's own `check_availability` result when the provider has that
attribute (`none` models a provider without it, assumed available);
`scraperProbe` and `rankerProbe` are the probes of the configured scraper and
ranker, which the method never consults: the scraper is hard-coded available
(`scraper_available = True`) and the ranker is not checked at all;
`chunkerValid` is `chunker_provider.validate_parameters()`. -/
def checkAvailability (searchProbe : Option Bool) (scraperProbe : Bool)
    (chunkerValid : Bool) (rankerProbe : Bool) : Bool :=
  let searchAvailable := searchProbe.getD true
  let scraperAvailable := true
  let chunkerAvailable := chunkerValid
  searchAvailable && scraperAvailable && chunkerAvailable

/-! ## Theorems for the claims -/

/-- Claim C10 (confirmed): empty or whitespace-only text makes both chunkers
return the empty list (the `if not text or not text.strip(): return []` guard
fires before the `len(text) <= chunk_size` single-chunk rule can produce
`[text]`), for every chunk size, overlap and loop fuel. -/
theorem chunkers_empty_input (cs ov fuel : Nat) (text : Text)
    (h : isAllWS text = true) :
    fixedChunkText cs ov fuel text = some [] ∧ recChunkText cs ov text = [] := by
  constructor
  · simp [fixedChunkText, h]
  · simp [recChunkText, h]

/-- Witness for C10 at a concrete whitespace-only input. -/
theorem chunkers_empty_input_w :
    fixedChunkText 5 0 7 " \t\n".toList = some [] ∧
    recChunkText 5 0 " \t\n".toList = [] :=
  chunkers_empty_input 5 0 7 " \t\n".toList (by decide)

/-- Claim C8 counterexample: a configuration whose scraper probe reports
unavailable (and whose ranker probe reports unavailable as well) still makes
`CustomRAG.check_availability` return `true`, because the method hard-codes
`scraper_available = True` and never consults the ranker, contradicting the
claimed AND over all four stages. -/
theorem checkAvailability_ignores_scraper_cex :
    checkAvailability (some true) false true false = true := by decide

/-- Claim C8 (amended): `check_availability` returns the AND of the search
provider's probe (defaulted to `true` when the provider lacks one) and the
chunker's parameter validation only; it is entirely independent of the
scraper and ranker probes. -/
theorem checkAvailability_search_and_chunker (s : Option Bool)
    (scr ch r scr' r' : Bool) :
    checkAvailability s scr ch r = (s.getD true && ch) ∧
    checkAvailability s scr ch r = checkAvailability s scr' ch r' := by
  constructor <;> simp [checkAvailability]

/-- Claim C7 (confirmed): when the request body fails to decode or parse
(`loads body = none` models `json.loads` raising on a non-JSON byte string),
`_inject_web_context_into_request` returns the exact original body together
with an empty sources map, for every search result and query; in the model
every Python exception path is a returned value, matching the `except`
handlers that catch `JSONDecodeError` and `Exception`. -/
theorem injectWebContext_fail_open (loads : Bytes → Option RequestData)
    (dumps : RequestData → Bytes) (genCtx : SearchResult → Text → Text)
    (body : Bytes) (sr : Option SearchResult) (query : Text)
    (h : loads body = none) :
    injectWebContext loads dumps genCtx body sr query = (body, []) := by
  unfold injectWebContext
  cases sr with
  | none => rfl
  | some r =>
    by_cases hw : r.webpages.isEmpty <;> simp [hw, h]

/-- Witness for C7 at a concrete non-JSON body. -/
theorem injectWebContext_fail_open_w :
    injectWebContext (fun _ => none) (fun _ => []) (fun _ _ => [])
      [104, 105] (some { query := [], webpages := [{ url := "u".toList }] })
      [] = ([104, 105], []) :=
  injectWebContext_fail_open _ _ _ _ _ _ rfl

/-- Claim C3 (confirmed): `scrape_webpages` returns exactly one page per input
page, in input order (`asyncio.gather` collects by task index), and a page
whose `scrape_url` raises is passed through unchanged by `_bounded_scrape`
(so its `content` stays `None`), never aborting or shrinking the batch. -/
theorem scrapeWebpages_batch (f : WebPage → Except Text WebPage)
    (pages : List WebPage) :
    (scrapeWebpages f pages).length = pages.length ∧
    (∀ i : Nat, (scrapeWebpages f pages)[i]? = (pages[i]?).map (boundedScrape f)) ∧
    (∀ p e, f p = .error e → boundedScrape f p = p) := by
  have hmap : scrapeWebpages f pages = pages.map (boundedScrape f) := by
    unfold scrapeWebpages
    induction pages with
    | nil => rfl
    | cons a t ih => simpa [List.filterMap_cons] using ih
  refine ⟨by rw [hmap]; exact List.length_map _ _, ?_, ?_⟩
  · intro i
    rw [hmap]
    exact List.getElem?_map _ _ _
  · intro p e h
    simp [boundedScrape, h]

/-- Concrete batch for the C3 witness: the middle page's fetch raises. -/
def scrapeFail3 : WebPage → Except Text WebPage := fun p =>
  if p.url = "http://fail".toList then Except.error "boom".toList
  else Except.ok { p with content := some "content".toList }

/-- Concrete three-page batch for the C3 witness. -/
def pages3 : List WebPage :=
  [{ url := "http://ok1".toList }, { url := "http://fail".toList },
   { url := "http://ok2".toList }]

/-- Witness for C3: on `[ok1, fail, ok2]` the batch keeps length 3, the failed
page is returned unchanged (content still `None`) and its neighbours are
scraped normally. -/
theorem scrapeWebpages_batch_w :
    (scrapeWebpages scrapeFail3 pages3).length = 3 ∧
    (scrapeWebpages scrapeFail3 pages3)[1]? = some { url := "http://fail".toList } ∧
    (scrapeWebpages scrapeFail3 pages3)[0]? =
      some { url := "http://ok1".toList, content := some "content".toList } := by
  have h := scrapeWebpages_batch scrapeFail3 pages3
  refine ⟨by rw [h.1]; rfl, ?_, ?_⟩
  · rw [h.2.1 1]; decide
  · rw [h.2.1 0]; decide

/-- A list of a repeated nonzero byte never contains the NUL byte. -/
theorem contains_replicate_nonzero (n a : Nat) (h : a ≠ 0) :
    (List.replicate n a).contains 0 = false := by
  induction n with
  | zero => rfl
  | succ n ih =>
    simp only [List.replicate_succ, List.contains_cons, ih, Bool.or_false]
    simpa using fun he => h he.symm

/-- A response whose `Content-Length` header is absent but whose actual body
is 5,000,001 bytes of `"A"`, served as `text/html`. -/
def oversizedResponse : HttpResponse :=
  { contentTypeHeader := some "text/html".toList,
    contentLengthHeader := none,
    body := List.replicate 5000001 65 }

/-- On the success path (short URL, `text/html`, declared length within the
cap, no NUL byte) `scrape_url` hands the entire decoded body to the
extractor, whatever the body's actual size. -/
theorem scrapeUrl_reads_full_body (decode : Bytes → Text)
    (extract : Text → Text → Option Text) (url : Text) (r : HttpResponse)
    (hu : url.length < 200)
    (hct : List.isPrefixOf "text/html".toList
      ((r.contentTypeHeader.getD []).map Char.toLower) = true)
    (hcl : r.contentLengthHeader.getD 0 ≤ 5000000)
    (hnul : r.body.contains 0 = false) :
    scrapeUrl decode extract url (some r) = extract (decode r.body) url := by
  unfold scrapeUrl
  rw [if_neg (by omega)]
  simp only [hct, Bool.true_or, Bool.not_true, Bool.false_eq_true, if_false]
  rw [if_neg (by omega)]
  simp only [hnul, Bool.false_eq_true, if_false]

/-- Claim C5 counterexample: `scrape_url` checks the 5,000,000-byte ceiling
only against the declared `Content-Length` header (absent ⇒ treated as `0`)
and then reads the entire body with `response.aread()`; a response that omits
the header therefore has its 5,000,001-byte body fully buffered and handed to
the extractor, contradicting the claimed incremental streaming cap. -/
theorem scrapeUrl_oversized_body_cex :
    scrapeUrl (fun b => b.map Char.ofNat) (fun html _ => some html)
        "http://x".toList (some oversizedResponse) =
      some (oversizedResponse.body.map Char.ofNat) ∧
    5000000 < oversizedResponse.body.length := by
  constructor
  · exact scrapeUrl_reads_full_body _ _ _ _ (by decide) (by decide) (by decide)
      (contains_replicate_nonzero 5000001 65 (by decide))
  · show 5000000 < (List.replicate 5000001 65).length
    rw [List.length_replicate]
    omega

/-- Claim C5 (amended): the only size limit `scrape_url` enforces is against
the declared `Content-Length` header, before the body is read: whenever the
parsed header value exceeds 5,000,000 the fetch is rejected (`None`); bodies
whose actual size exceeds the limit while the header omits or misstates it
are read in full and passed to the extractor. -/
theorem scrapeUrl_header_cap (decode : Bytes → Text)
    (extract : Text → Text → Option Text) (url : Text)
    (fetch : Option HttpResponse) (r : HttpResponse)
    (hf : fetch = some r) (hlen : 5000000 < r.contentLengthHeader.getD 0) :
    scrapeUrl decode extract url fetch = none := by
  subst hf
  unfold scrapeUrl
  by_cases hu : 200 ≤ url.length
  · rw [if_pos hu]
  · rw [if_neg hu]
    cases hct : (List.isPrefixOf "text/html".toList
        ((r.contentTypeHeader.getD []).map Char.toLower) ||
        List.isPrefixOf "text/plain".toList
        ((r.contentTypeHeader.getD []).map Char.toLower)) with
    | false => simp only [hct, Bool.not_false, if_true]
    | true =>
      simp only [hct, Bool.not_true, Bool.false_eq_true, if_false]
      rw [if_pos hlen]

/-- Witness for C5's amended theorem: a declared `Content-Length` of 6,000,000
is rejected before the (tiny) body is considered. -/
theorem scrapeUrl_header_cap_w :
    scrapeUrl (fun _ => []) (fun html _ => some html) "http://x".toList
      (some { contentTypeHeader := some "text/html".toList,
              contentLengthHeader := some 6000000, body := [65] }) = none :=
  scrapeUrl_header_cap _ _ _ _ _ rfl (by decide)

/-- The length-20 input on which the fixed-size chunker loops forever when
`chunk_size = chunk_overlap = 10`. -/
def stuckText : Text := List.replicate 20 'a'

/-- Once the cursor reaches 10 on `stuckText` with `cs = ov = 10`, every
iteration recomputes `start = end - overlap = 20 - 10 = 10` (which is positive,
so the `start <= 0` reset never fires) and the loop never leaves that state. -/
theorem fixedLoop_stuck (fuel : Nat) :
    ∀ chunks, fixedLoop 10 10 stuckText fuel 10 chunks = none := by
  induction fuel with
  | zero => intro chunks; rfl
  | succ n ih =>
    intro chunks
    have h : fixedLoop 10 10 stuckText (n + 1) 10 chunks =
        fixedLoop 10 10 stuckText n 10 (chunks ++ [(stuckText.drop 10).take 10]) := by
      simp [fixedLoop, stuckText]
    rw [h]
    exact ih _

/-- Claim C9 (code bug): the `start <= 0` guard of `FixedSizeChunker.chunk_text`
does not force the cursor forward by `chunk_size`; with `chunk_size = 10`,
`chunk_overlap = 10` and a 20-character input the cursor moves 0 → 10 → 10 → …
forever, so `chunk_text` never terminates (the loop model returns `none` for
every amount of fuel), contradicting the code's own
`# Prevent infinite loop if overlap >= chunk_size` comment. -/
theorem fixedChunkText_nonterminating (fuel : Nat) :
    fixedChunkText 10 10 fuel stuckText = none := by
  have hws : ¬ (isAllWS stuckText = true) := by decide
  have hlen : ¬ (stuckText.length ≤ 10) := by decide
  have e1 : ∀ fl, fixedChunkText 10 10 fl stuckText = fixedLoop 10 10 stuckText fl 0 [] := by
    intro fl
    unfold fixedChunkText
    rw [if_neg hws, if_neg hlen]
  cases fuel with
  | zero => rw [e1]; rfl
  | succ n =>
    rw [e1]
    have e2 : fixedLoop 10 10 stuckText (n + 1) 0 [] =
        fixedLoop 10 10 stuckText n 10 [(stuckText.drop 0).take 10] := by
      simp [fixedLoop, stuckText]
    rw [e2]
    exact fixedLoop_stuck n _

/-- Correctness of the reverse scan: `lastUserIndex` returns a valid index of
a user message with no user message after it, and `none` exactly when no
message has role `"user"`. -/
theorem lastUserIndex_spec (msgs : List ChatMessage) :
    (∀ k, lastUserIndex msgs = some k →
      k < msgs.length ∧
      (∃ u, msgs[k]? = some u ∧ u.role = "user".toList) ∧
      (∀ (j : Nat) (u : ChatMessage), k < j → msgs[j]? = some u →
        u.role ≠ "user".toList)) ∧
    (lastUserIndex msgs = none →
      ∀ (j : Nat) (u : ChatMessage), msgs[j]? = some u →
        u.role ≠ "user".toList) := by
  induction msgs with
  | nil =>
    constructor
    · intro k h
      simp [lastUserIndex] at h
    · intro _ j u hj
      simp at hj
  | cons m rest ih =>
    cases hrec : lastUserIndex rest with
    | some k' =>
      constructor
      · intro k h
        simp only [lastUserIndex, hrec] at h
        have hk : k = k' + 1 := (Option.some_injective _ h).symm
        subst hk
        obtain ⟨h1, ⟨u, hu, hrole⟩, h3⟩ := ih.1 k' hrec
        refine ⟨by simpa using h1, ⟨u, by simpa using hu, hrole⟩, ?_⟩
        intro j v hj hv
        cases j with
        | zero => omega
        | succ j' =>
          exact h3 j' v (by omega) (by simpa using hv)
      · intro h
        simp only [lastUserIndex, hrec] at h
        exact Option.noConfusion h
    | none =>
      by_cases hrole : m.role = "user".toList
      · constructor
        · intro k h
          simp only [lastUserIndex, hrec, if_pos hrole] at h
          have hk : k = 0 := (Option.some_injective _ h).symm
          subst hk
          refine ⟨by simp, ⟨m, by simp, hrole⟩, ?_⟩
          intro j v hj hv
          cases j with
          | zero => omega
          | succ j' => exact ih.2 hrec j' v (by simpa using hv)
        · intro h
          simp only [lastUserIndex, hrec, if_pos hrole] at h
          exact Option.noConfusion h
      · constructor
        · intro k h
          simp only [lastUserIndex, hrec, if_neg hrole] at h
          exact Option.noConfusion h
        · intro _ j v hv
          cases j with
          | zero =>
            simp only [List.getElem?_cons_zero] at hv
            cases hv
            exact hrole
          | succ j' =>
            exact ih.2 hrec j' v (by simpa using hv)

/-- Positional description of a list insertion `take k ++ x :: drop k`. -/
theorem insert_positional {α : Type} (l : List α) (x : α) (k : Nat)
    (hk : k ≤ l.length) :
    (l.take k ++ x :: l.drop k).length = l.length + 1 ∧
    (∀ j, j < k → (l.take k ++ x :: l.drop k)[j]? = l[j]?) ∧
    (l.take k ++ x :: l.drop k)[k]? = some x ∧
    (∀ j, k < j → (l.take k ++ x :: l.drop k)[j]? = l[j - 1]?) := by
  have htk : (l.take k).length = k := by
    rw [List.length_take]; omega
  refine ⟨?_, ?_, ?_, ?_⟩
  · simp [List.length_take, List.length_drop]; omega
  · intro j hj
    rw [List.getElem?_append, if_pos (by omega)]
    rw [List.getElem?_take, if_pos hj]
  · rw [List.getElem?_append_right (by omega), htk]
    simp
  · intro j hj
    rw [List.getElem?_append_right (by omega), htk]
    have h1 : j - k = (j - k - 1) + 1 := by omega
    rw [h1, List.getElem?_cons_succ, List.getElem?_drop]
    congr 1
    omega

/-- Claim C6 (confirmed): when the messages array contains a user message,
`_inject_web_context_into_request` inserts the new message at exactly the
index of the last user entry — so it sits immediately before that user
message — leaving every other message at its relative position (indices below
the insertion point unchanged, indices above shifted by exactly one), and the
result has exactly one extra message; when no user message exists the new
message is appended at the end. -/
theorem injectMessages_placement (msgs : List ChatMessage) (m : ChatMessage) :
    (match lastUserIndex msgs with
     | some k =>
        k < msgs.length ∧
        (∃ u, msgs[k]? = some u ∧ u.role = "user".toList) ∧
        (∀ j u, k < j → msgs[j]? = some u → u.role ≠ "user".toList) ∧
        injectMessages msgs m = msgs.take k ++ m :: msgs.drop k ∧
        (injectMessages msgs m).length = msgs.length + 1 ∧
        (∀ j, j < k → (injectMessages msgs m)[j]? = msgs[j]?) ∧
        (injectMessages msgs m)[k]? = some m ∧
        (∀ j, k < j → (injectMessages msgs m)[j]? = msgs[j - 1]?)
     | none => injectMessages msgs m = msgs ++ [m]) := by
  cases h : lastUserIndex msgs with
  | some k =>
    obtain ⟨h1, h2, h3⟩ := (lastUserIndex_spec msgs).1 k h
    have heq : injectMessages msgs m = msgs.take k ++ m :: msgs.drop k := by
      unfold injectMessages
      rw [h]
    obtain ⟨p1, p2, p3, p4⟩ := insert_positional msgs m k (le_of_lt h1)
    refine ⟨h1, h2, h3, heq, ?_, ?_, ?_, ?_⟩
    · rw [heq]; exact p1
    · intro j hj; rw [heq]; exact p2 j hj
    · rw [heq]; exact p3
    · intro j hj; rw [heq]; exact p4 j hj
  | none =>
    unfold injectMessages
    rw [h]

/-- The spec's four-message example for the C6 witness:
`[system, user1, assistant1, user2]`. -/
def msgs4 : List ChatMessage :=
  [{ role := "system".toList, content := "s".toList },
   { role := "user".toList, content := "u1".toList },
   { role := "assistant".toList, content := "a1".toList },
   { role := "user".toList, content := "u2".toList }]

/-- The injected web-context message used in the C6 witness. -/
def webMsg : ChatMessage := { role := "system".toList, content := "ctx".toList }

/-- Witness for C6: on `[system, user1, assistant1, user2]` the new message
lands at index 3, producing `[system, user1, assistant1, new, user2]`. -/
theorem injectMessages_placement_w :
    injectMessages msgs4 webMsg = msgs4.take 3 ++ webMsg :: msgs4.drop 3 ∧
    (injectMessages msgs4 webMsg)[3]? = some webMsg ∧
    injectMessages msgs4 webMsg =
      [{ role := "system".toList, content := "s".toList },
       { role := "user".toList, content := "u1".toList },
       { role := "assistant".toList, content := "a1".toList },
       webMsg,
       { role := "user".toList, content := "u2".toList }] := by
  have h := injectMessages_placement msgs4 webMsg
  rw [show lastUserIndex msgs4 = some 3 from by decide] at h
  exact ⟨h.2.2.2.1, h.2.2.2.2.2.2.1, by rw [h.2.2.2.1]; decide⟩

/-- Inserting a pair into a sorted pair list yields a permutation of pushing
it on the front. -/
theorem insertPair_perm (x : ℚ × Nat) (l : List (ℚ × Nat)) :
    (insertPair x l).Perm (x :: l) := by
  induction l with
  | nil => exact List.Perm.refl _
  | cons y ys ih =>
    unfold insertPair
    by_cases h : x.1 ≤ y.1
    · rw [if_pos h]
    · rw [if_neg h]
      exact (ih.cons y).trans (List.Perm.swap x y ys)

/-- The stable insertion sort permutes its input. -/
theorem sortPairs_perm (l : List (ℚ × Nat)) : (sortPairs l).Perm l := by
  induction l with
  | nil => exact List.Perm.refl _
  | cons x xs ih =>
    exact (insertPair_perm x (sortPairs xs)).trans (ih.cons x)

/-- The argsort index list is a permutation of `range scores.length`. -/
theorem argsortAsc_perm (scores : List ℚ) :
    (argsortAsc scores).Perm (List.range scores.length) := by
  unfold argsortAsc
  have h := (sortPairs_perm (scores.zip (List.range scores.length))).map
    (fun p : ℚ × Nat => p.2)
  have hz : (scores.zip (List.range scores.length)).map (fun p : ℚ × Nat => p.2) =
      List.range scores.length := by
    have := List.map_snd_zip scores (List.range scores.length)
      (by rw [List.length_range])
    simpa [Prod.snd] using this
  rwa [hz] at h

/-- Looking up every index of `range l.length` in `l` rebuilds `l`. -/
theorem filterMap_getElem_range {α : Type} (l : List α) :
    (List.range l.length).filterMap (fun i => l[i]?) = l := by
  induction l with
  | nil => rfl
  | cons a t ih =>
    have hr : List.range (a :: t).length = 0 :: (List.range t.length).map Nat.succ := by
      simpa using List.range_succ_eq_map t.length
    rw [hr]
    simp only [List.filterMap_cons, List.getElem?_cons_zero, List.filterMap_map]
    congr 1
    have hfun : ((fun i => (a :: t)[i]?) ∘ Nat.succ) = fun i : Nat => t[i]? :=
      funext (fun i => List.getElem?_cons_succ)
    rw [hfun]
    exact ih

/-- With `n = docs.length` and matching score count, `get_top_n` returns a
permutation of the documents (every document exactly once, sorted). -/
theorem getTopN_full_perm (scores : List ℚ) (docs : List Text)
    (h : scores.length = docs.length) :
    (getTopN scores docs docs.length).Perm docs := by
  unfold getTopN
  have hperm : ((argsortAsc scores).reverse).Perm (List.range docs.length) := by
    have := argsortAsc_perm scores
    rw [h] at this
    exact (List.reverse_perm _).trans this
  have hlen : ((argsortAsc scores).reverse).length = docs.length := hperm.length_eq.trans
    (by rw [List.length_range])
  rw [List.take_of_length_le (by rw [hlen])]
  have := hperm.filterMap (fun i => docs[i]?)
  rwa [filterMap_getElem_range docs] at this

/-- The `_sort_chunks` output is a permutation of its input chunk list, for
every scoring function. -/
theorem sortChunks_perm (scoreFn : ScoreFn) (query : Text) (chunks : List Text) :
    (sortChunks scoreFn query chunks).Perm chunks := by
  unfold sortChunks
  by_cases h : chunks.isEmpty
  · rw [if_pos h]
    cases chunks with
    | nil => exact List.Perm.refl _
    | cons a t => simp at h
  · rw [if_neg h]
    exact getTopN_full_perm _ _ (by simp)

/-- The chunk list of a page after the `_rank_local` per-page transform is a
sub-permutation of the page's previous chunk list. -/
theorem rankLocalPage_subperm (scoreFn : ScoreFn) (query : Text) (topK : Nat)
    (page : WebPage) :
    (((rankLocalPage scoreFn query topK page).chunks).getD []).Subperm
      ((page.chunks).getD []) := by
  cases hc : page.chunks with
  | none => simp [rankLocalPage, hc]
  | some cs =>
    cases cs with
    | nil => simp [rankLocalPage, hc]
    | cons a t =>
      simp only [rankLocalPage, hc, Option.getD_some]
      exact ((List.take_sublist _ _).subperm).trans
        ((sortChunks_perm scoreFn query (a :: t)).subperm)

/-- The chunk list of a page after the `_rank_global` projection is a
sub-permutation (in fact a sublist) of the page's previous chunk list. -/
theorem rankGlobalPage_subperm (winners : List Text) (page : WebPage) :
    (((rankGlobalPage winners page).chunks).getD []).Subperm
      ((page.chunks).getD []) := by
  cases hc : page.chunks with
  | none => simp [rankGlobalPage, hc]
  | some cs =>
    cases cs with
    | nil => simp [rankGlobalPage, hc]
    | cons a t =>
      simp only [rankGlobalPage, hc, Option.getD_some]
      exact (List.filter_sublist _).subperm

/-- Claim C1 (amended): for every scoring backend and every input, each
page's chunk list after `rank` is a sub-permutation (a sub-multiset: no chunk
added, none duplicated) of that page's chunk list before ranking; the
relative order, however, is not preserved in general (see the
counterexample), because the local pass stores the chunks sorted by
descending score. -/
theorem bm25Rank_chunks_subperm (scoreFn : ScoreFn) (available : Bool)
    (localK : Nat) (sr : SearchResult) (query : Text) :
    List.Forall₂
      (fun p q : WebPage => ((q.chunks).getD []).Subperm ((p.chunks).getD []))
      sr.webpages (bm25Rank scoreFn available localK sr query).webpages := by
  unfold bm25Rank
  by_cases hav : (!available || sr.webpages.isEmpty) = true
  · rw [if_pos hav]
    exact List.forall₂_same.mpr (fun p _ => List.Subperm.refl _)
  · rw [if_neg hav]
    unfold rankGlobal rankLocal
    dsimp only
    split
    · exact List.forall₂_map_right_iff.mpr (List.forall₂_same.mpr
        (fun p _ => rankLocalPage_subperm scoreFn query localK p))
    · show List.Forall₂ _ sr.webpages
        ((sr.webpages.map (rankLocalPage scoreFn query localK)).map (rankGlobalPage _))
      rw [List.map_map]
      refine List.forall₂_map_right_iff.mpr (List.forall₂_same.mpr (fun p _ => ?_))
      exact (rankGlobalPage_subperm _ _).trans
        (rankLocalPage_subperm scoreFn query localK p)

/-- Scoring function realizing the BM25 scores of the C1 counterexample
corpus: in the three-chunk corpus `["apple", "apple", "lightning"]` against
the query `"lightning"`, the real `rank_bm25` scores are `0` for both
`"apple"` chunks (the query term does not occur in them) and
`log 2.5 − log 1.5 > 0` for the `"lightning"` chunk; the rational scores
`(0, 0, 1)` used here are order-isomorphic to those values, and the only tied
documents are the two identical `"apple"` chunks, so `get_top_n` returns the
same chunk-content sequence. -/
def scoreLightning : ScoreFn := fun _ _ d =>
  if d = ["lightning".toList] then 1 else 0

/-- The single-page search result of the C1 counterexample. -/
def srApple : SearchResult :=
  { query := "lightning".toList,
    webpages := [{ url := "http://a".toList,
                   chunks := some ["apple".toList, "apple".toList,
                                   "lightning".toList] }] }

/-- Claim C1 counterexample: ranking the page whose chunks are
`["apple", "apple", "lightning"]` against the query `"lightning"` keeps all
three chunks but stores them as `["lightning", "apple", "apple"]`, which is
not an order-preserving subsequence (by content) of the original chunk list:
the local BM25 pass reorders the chunks of a page. -/
theorem bm25Rank_reorders_cex :
    ((bm25Rank scoreLightning true 5 srApple "lightning".toList).webpages.map
      (fun p => (p.chunks).getD [])) =
        [["lightning".toList, "apple".toList, "apple".toList]] ∧
    ¬ List.Sublist ["lightning".toList, "apple".toList, "apple".toList]
        ["apple".toList, "apple".toList, "lightning".toList] := by
  constructor
  · decide
  · decide

/-- Scoring function realizing the BM25 scores of the C2 counterexample: all
21 pooled chunks are the identical string `"x"`, so the real `rank_bm25`
scorer necessarily assigns every one of them the same score (a document's
score depends only on its tokens and the corpus statistics); the constant
zero function reproduces that all-tied pattern, and any descending selection
of 20 out of 21 identical chunks yields 20 copies of `"x"` whatever
tie-breaking order is used. -/
def scoreZero : ScoreFn := fun _ _ _ => 0

/-- Twenty-one pages, each holding the single chunk `"x"`. -/
def srX21 : SearchResult :=
  { query := "q".toList,
    webpages := (List.range 21).map (fun i =>
      { url := [Char.ofNat (65 + i)], chunks := some ["x".toList] }) }

/-- Claim C2 counterexample: with 21 pages each carrying the same chunk text
`"x"`, the global pass picks 20 pooled winners, but the projection by
set membership (`winners_set`) keeps the chunk of every one of the 21 pages,
so the total surviving chunk count is 21 > `globalK = 20`. -/
theorem bm25Rank_global_cap_cex :
    (((bm25Rank scoreZero true 5 srX21 "q".toList).webpages.map
      (fun p => ((p.chunks).getD []).length)).sum = 21) ∧
    ¬ (21 ≤ globalK) := by
  constructor
  · decide
  · decide

/-- Claim C2 (amended): after the two-pass `rank`, the number of distinct
surviving chunk texts over all pages is at most `globalK = 20` (every
survivor is a member of the 20-element winners list); the per-page sum of
surviving chunk counts can exceed `globalK` when the same chunk text occurs
on more than one page, because the projection is by membership in the
deduplicating winners set. -/
theorem bm25Rank_distinct_survivors_cap (scoreFn : ScoreFn) (localK : Nat)
    (sr : SearchResult) (query : Text) :
    ((((bm25Rank scoreFn true localK sr query).webpages.map
      (fun p => (p.chunks).getD [])).flatten).toFinset).card ≤ globalK := by
  unfold bm25Rank
  by_cases hav : ((!true || sr.webpages.isEmpty) = true)
  · rw [if_pos hav]
    simp only [Bool.not_true, Bool.false_or] at hav
    have : sr.webpages = [] := by
      cases h : sr.webpages with
      | nil => rfl
      | cons a t => rw [h] at hav; simp at hav
    rw [this]
    simp
  · rw [if_neg hav]
    unfold rankGlobal rankLocal
    dsimp only
    split
    · rename_i hemp
      have : ((sr.webpages.map (rankLocalPage scoreFn query localK)).map
          (fun p => p.chunks.getD [])).flatten = [] := by
        simpa [List.isEmpty_iff] using hemp
      rw [this]
      simp
    · set winners := List.take globalK (sortChunks scoreFn query
        ((List.map (fun p => p.chunks.getD [])
          (List.map (rankLocalPage scoreFn query localK) sr.webpages)).flatten))
        with hw
      have hmem : ∀ x, x ∈ (((sr.webpages.map (rankLocalPage scoreFn query localK)).map
          (rankGlobalPage winners)).map (fun p => p.chunks.getD [])).flatten →
          x ∈ winners := by
        intro x hx
        rw [List.mem_flatten] at hx
        obtain ⟨l, hl, hxl⟩ := hx
        rw [List.map_map, List.mem_map] at hl
        obtain ⟨p, _, hpl⟩ := hl
        subst hpl
        simp only [Function.comp_apply] at hxl
        cases hc : p.chunks with
        | none => simp [rankGlobalPage, hc] at hxl
        | some cs =>
          cases cs with
          | nil => simp [rankGlobalPage, hc] at hxl
          | cons a t =>
            simp only [rankGlobalPage, hc, Option.getD_some] at hxl
            have := List.of_mem_filter hxl
            simpa using this
      have hsub : ((((sr.webpages.map (rankLocalPage scoreFn query localK)).map
          (rankGlobalPage winners)).map (fun p => p.chunks.getD [])).flatten).toFinset ⊆
          winners.toFinset := by
        intro x hx
        rw [List.mem_toFinset] at hx ⊢
        exact hmem x hx
      calc ((((sr.webpages.map (rankLocalPage scoreFn query localK)).map
          (rankGlobalPage winners)).map (fun p => p.chunks.getD [])).flatten).toFinset.card
          ≤ winners.toFinset.card := Finset.card_le_card hsub
        _ ≤ winners.length := List.toFinset_card_le winners
        _ ≤ globalK := by rw [hw]; exact List.length_take_le _ _

/-! ## Whitespace-preservation lemmas for the recursive chunker (claim C4)

Every splitter of `_split_recursive` removes only whitespace separator
characters, every joiner inserts only whitespace, and the normalization and
strip steps touch only whitespace, so the non-whitespace characters of the
input survive chunking exactly, in order.  The following lemmas establish
this invariant layer by layer. -/

/-- Filtering respects concatenation. -/
theorem filterNW_append (a b : Text) :
    filterNW (a ++ b) = filterNW a ++ filterNW b := List.filter_append _ _

/-- A leading whitespace character does not contribute. -/
theorem filterNW_cons_ws (c : Char) (l : Text) (h : pyWS c = true) :
    filterNW (c :: l) = filterNW l := by
  simp [filterNW, List.filter_cons, h]

/-- A leading non-whitespace character is kept. -/
theorem filterNW_cons_nws (c : Char) (l : Text) (h : pyWS c = false) :
    filterNW (c :: l) = c :: filterNW l := by
  simp [filterNW, List.filter_cons, h]

/-- Whitespace-only strings vanish under the filter. -/
theorem filterNW_all_ws (l : Text) (h : l.all pyWS = true) : filterNW l = [] := by
  rw [filterNW, List.filter_eq_nil_iff]
  intro a ha
  simp [(List.all_eq_true.mp h) a ha]

/-- Flattening after a `consHead` re-attaches the character at the front. -/
theorem flatten_consHead (c : Char) (L : List Text) :
    (consHead c L).flatten = c :: L.flatten := by
  cases L <;> simp [consHead]

/-- The single-character splitter loses exactly the separator occurrences, so
for a whitespace separator the non-whitespace content is untouched. -/
theorem splitOnChar_nw (sep : Char) (hsep : pyWS sep = true) (l : Text) :
    filterNW (splitOnChar sep l).flatten = filterNW l := by
  induction l with
  | nil => rfl
  | cons c rest ih =>
    unfold splitOnChar
    by_cases h : c = sep
    · rw [if_pos h, List.flatten_cons]
      rw [filterNW_cons_ws c rest (h ▸ hsep)]
      simpa using ih
    · rw [if_neg h, flatten_consHead]
      cases hpc : pyWS c with
      | true => rw [filterNW_cons_ws _ _ hpc, filterNW_cons_ws _ _ hpc]; exact ih
      | false => rw [filterNW_cons_nws _ _ hpc, filterNW_cons_nws _ _ hpc, ih]

/-- The characters covered by a successful `\n\s*\n` tail match are all
whitespace. -/
theorem lastNLin_take_ws (l : Text) :
    ∀ k, lastNLin l = some k → (l.take (k + 1)).all pyWS = true := by
  induction l with
  | nil => intro k h; simp [lastNLin] at h
  | cons c rest ih =>
    intro k h
    unfold lastNLin at h
    by_cases hws : pyWS c = true
    · rw [if_pos hws] at h
      cases hr : lastNLin rest with
      | some k' =>
        rw [hr] at h
        have hk : k = k' + 1 := (Option.some_injective _ h).symm
        subst hk
        simpa [hws] using ih k' hr
      | none =>
        rw [hr] at h
        by_cases hnl : c = '\n'
        · rw [if_pos hnl] at h
          have hk : k = 0 := (Option.some_injective _ h).symm
          subst hk
          simp [hws]
        · rw [if_neg hnl] at h
          exact Option.noConfusion h
    · rw [if_neg hws] at h
      exact Option.noConfusion h

/-- The paragraph splitter (`re.split(r"\n\s*\n", …)`) removes only
whitespace. -/
theorem splitParaF_nw :
    ∀ fuel l, l.length ≤ fuel →
      filterNW (splitParaF fuel l).flatten = filterNW l := by
  intro fuel
  induction fuel with
  | zero => intro l _; simp [splitParaF]
  | succ fuel ih =>
    intro l hl
    cases l with
    | nil => simp [splitParaF]
    | cons c rest =>
      unfold splitParaF
      by_cases hc : c = '\n'
      · rw [if_pos hc]
        cases hnl : lastNLin rest with
        | some k =>
          rw [List.flatten_cons]
          have hdrop : (rest.drop (k + 1)).length ≤ fuel := by
            rw [List.length_drop]
            simp only [List.length_cons] at hl
            omega
          rw [show filterNW ([] ++ (splitParaF fuel (rest.drop (k + 1))).flatten) =
              filterNW (splitParaF fuel (rest.drop (k + 1))).flatten from rfl]
          rw [ih _ hdrop]
          rw [filterNW_cons_ws c rest (by rw [hc]; decide)]
          conv_rhs => rw [← List.take_append_drop (k + 1) rest]
          rw [filterNW_append, filterNW_all_ws _ (lastNLin_take_ws rest k hnl)]
          rfl
        | none =>
          rw [flatten_consHead]
          have hlen : rest.length ≤ fuel := by
            simp only [List.length_cons] at hl; omega
          have hwc : pyWS c = true := by rw [hc]; decide
          rw [filterNW_cons_ws _ _ hwc, filterNW_cons_ws _ _ hwc]
          exact ih rest hlen
      · rw [if_neg hc, flatten_consHead]
        have hlen : rest.length ≤ fuel := by
          simp only [List.length_cons] at hl; omega
        cases hpc : pyWS c with
        | true =>
          rw [filterNW_cons_ws _ _ hpc, filterNW_cons_ws _ _ hpc]
          exact ih rest hlen
        | false =>
          rw [filterNW_cons_nws _ _ hpc, filterNW_cons_nws _ _ hpc, ih rest hlen]

/-- The spaces skipped by the sentence separator are whitespace. -/
theorem takeWhile_space_all_ws (l : Text) :
    (l.takeWhile (fun d => d = ' ')).all pyWS = true := by
  rw [List.all_eq_true]
  intro x hx
  have := List.mem_takeWhile_imp hx
  have hx' : x = ' ' := by simpa using this
  rw [hx']
  decide

/-- Dropping a prefix never lengthens a list. -/
theorem length_dropWhile_le {α : Type} (p : α → Bool) (l : List α) :
    (l.dropWhile p).length ≤ l.length := by
  induction l with
  | nil => simp
  | cons c rest ih =>
    rw [List.dropWhile_cons]
    by_cases h : p c = true
    · rw [if_pos h]; simp only [List.length_cons]; omega
    · rw [if_neg h]

/-- The sentence splitter (`re.split(r"(?<=[.!?]) +", …)`) removes only
whitespace (the separator is a run of spaces; the punctuation stays). -/
theorem splitSentF_nw :
    ∀ fuel prev l, l.length ≤ fuel →
      filterNW (splitSentF fuel prev l).flatten = filterNW l := by
  intro fuel
  induction fuel with
  | zero => intro prev l _; simp [splitSentF]
  | succ fuel ih =>
    intro prev l hl
    cases l with
    | nil => simp [splitSentF]
    | cons c rest =>
      unfold splitSentF
      by_cases hcond : (prev = some '.' ∨ prev = some '!' ∨ prev = some '?') ∧ c = ' '
      · rw [if_pos hcond]
        rw [List.flatten_cons]
        have hdrop : (rest.dropWhile (fun d => d = ' ')).length ≤ fuel := by
          have := length_dropWhile_le (fun d => d = ' ') rest
          simp only [List.length_cons] at hl
          omega
        rw [show filterNW ([] ++ (splitSentF fuel (some ' ')
            (rest.dropWhile (fun d => d = ' '))).flatten) =
            filterNW (splitSentF fuel (some ' ')
            (rest.dropWhile (fun d => d = ' '))).flatten from rfl]
        rw [ih _ _ hdrop]
        rw [filterNW_cons_ws c rest (by rw [hcond.2]; decide)]
        conv_rhs => rw [← List.takeWhile_append_dropWhile (fun d => d = ' ') rest]
        rw [filterNW_append, filterNW_all_ws _ (takeWhile_space_all_ws rest)]
        rfl
      · rw [if_neg hcond, flatten_consHead]
        have hlen : rest.length ≤ fuel := by
          simp only [List.length_cons] at hl; omega
        cases hpc : pyWS c with
        | true =>
          rw [filterNW_cons_ws _ _ hpc, filterNW_cons_ws _ _ hpc]
          exact ih _ rest hlen
        | false =>
          rw [filterNW_cons_nws _ _ hpc, filterNW_cons_nws _ _ hpc, ih _ rest hlen]

/-- The hard cut partitions the text exactly (for a positive chunk size). -/
theorem hardCutF_flatten (cs : Nat) (hcs : 0 < cs) :
    ∀ fuel l, l.length ≤ fuel → (hardCutF cs fuel l).flatten = l := by
  intro fuel
  induction fuel with
  | zero =>
    intro l hl
    have : l = [] := List.length_eq_zero.mp (by omega)
    subst this
    rfl
  | succ fuel ih =>
    intro l hl
    cases l with
    | nil => rfl
    | cons c rest =>
      show ((c :: rest).take cs :: hardCutF cs fuel ((c :: rest).drop cs)).flatten
          = c :: rest
      rw [List.flatten_cons]
      have hdl : ((c :: rest).drop cs).length ≤ fuel := by
        rw [List.length_drop]
        simp only [List.length_cons] at hl
        simp only [List.length_cons]
        omega
      rw [ih _ hdl]
      exact List.take_append_drop cs (c :: rest)

/-- Rejoining pieces with an all-whitespace separator inserts only
whitespace. -/
theorem intercalate_nw (sep : Text) (hsep : sep.all pyWS = true) :
    ∀ pieces : List Text,
      filterNW (List.intercalate sep pieces) = filterNW pieces.flatten := by
  intro pieces
  induction pieces with
  | nil => rfl
  | cons p ps ih =>
    cases ps with
    | nil => simp [List.intercalate, List.intersperse]
    | cons q qs =>
      have hstep : List.intercalate sep (p :: q :: qs) =
          p ++ sep ++ List.intercalate sep (q :: qs) := by
        simp [List.intercalate, List.intersperse]
      rw [hstep, List.flatten_cons, filterNW_append, filterNW_append,
        filterNW_all_ws sep hsep, filterNW_append, ih]
      simp

/-- All three joiners of `_join_pieces` are whitespace-only, so joining never
adds non-whitespace characters. -/
theorem joinPieces_nw (sep : Text) (pieces : List Text) :
    filterNW (joinPieces sep pieces) = filterNW pieces.flatten := by
  unfold joinPieces
  by_cases h1 : sep = ['\n', '\n']
  · rw [if_pos h1]; exact intercalate_nw _ (by decide) pieces
  · rw [if_neg h1]
    by_cases h2 : sep = ['\n']
    · rw [if_pos h2]; exact intercalate_nw _ (by decide) pieces
    · rw [if_neg h2]; exact intercalate_nw _ (by decide) pieces

/-- Filtering the empty string gives the empty string. -/
theorem filterNW_nil : filterNW [] = [] := rfl

/-- Flushing the buffer appends exactly the buffer's non-whitespace
content. -/
theorem flushBuf_nw (sep : Text) (chunks buffer : List Text) :
    filterNW (flushBuf sep chunks buffer).flatten =
      filterNW chunks.flatten ++ filterNW buffer.flatten := by
  unfold flushBuf
  by_cases hb : buffer.isEmpty = true
  · rw [if_pos hb]
    have : buffer = [] := List.isEmpty_iff.mp hb
    subst this
    simp [filterNW_nil]
  · rw [if_neg hb, List.flatten_append, filterNW_append]
    simp [joinPieces_nw]

/-- The packing loop of `_split_recursive` preserves non-whitespace content:
whatever grouping and flushing happens, the concatenation of the produced
chunks carries exactly the non-whitespace characters of the processed state
plus the remaining pieces (the recursion on oversized pieces is assumed
content-preserving via `hrec`). -/
theorem packFold_nw (cs : Nat) (sep : Text) (recur : Text → List Text)
    (hrec : ∀ p : Text, filterNW (recur p).flatten = filterNW p) :
    ∀ (splits : List Text) (chunks buffer : List Text) (blen : Nat),
      filterNW (flushBuf sep
          (List.foldl (packStep cs sep recur) (chunks, buffer, blen) splits).1
          (List.foldl (packStep cs sep recur) (chunks, buffer, blen) splits).2.1).flatten =
        filterNW chunks.flatten ++ filterNW buffer.flatten ++
          filterNW splits.flatten := by
  intro splits
  induction splits with
  | nil =>
    intro chunks buffer blen
    simp [flushBuf_nw, filterNW_nil]
  | cons piece rest ih =>
    intro chunks buffer blen
    rw [List.foldl_cons]
    by_cases hbig : cs < piece.length
    · have hstep : packStep cs sep recur (chunks, buffer, blen) piece =
          (flushBuf sep chunks buffer ++ recur piece, [], 0) := by
        unfold packStep
        dsimp only
        rw [if_pos hbig]
      rw [hstep, ih]
      rw [List.flatten_append, filterNW_append, flushBuf_nw, hrec]
      simp [filterNW_append, filterNW_nil, List.append_assoc]
    · by_cases hfit :
          blen + piece.length + (if buffer.isEmpty then 0 else 1) ≤ cs
      · have hstep : packStep cs sep recur (chunks, buffer, blen) piece =
            (chunks, buffer ++ [piece],
              blen + piece.length + (if buffer.isEmpty then 0 else 1)) := by
          unfold packStep
          dsimp only
          rw [if_neg hbig]
          rw [if_pos hfit]
        rw [hstep, ih]
        simp [filterNW_append, List.append_assoc]
      · have hstep : packStep cs sep recur (chunks, buffer, blen) piece =
            (flushBuf sep chunks buffer, [piece], piece.length) := by
          unfold packStep
          dsimp only
          rw [if_neg hbig]
          rw [if_neg hfit]
        rw [hstep, ih]
        rw [flushBuf_nw]
        simp [filterNW_append, List.append_assoc]

/-- The whole packing loop preserves non-whitespace content. -/
theorem packLoop_nw (cs : Nat) (sep : Text) (recur : Text → List Text)
    (hrec : ∀ p : Text, filterNW (recur p).flatten = filterNW p)
    (splits : List Text) :
    filterNW (packLoop cs sep recur splits).flatten =
      filterNW splits.flatten := by
  unfold packLoop
  dsimp only
  rw [packFold_nw cs sep recur hrec splits [] [] 0]
  rfl

/-- Dropping whitespace-only pieces (`[s for s in splits if s.strip()]`)
removes only whitespace characters. -/
theorem filter_strip_nw (splits : List Text) :
    filterNW (splits.filter (fun s => !(isAllWS s))).flatten =
      filterNW splits.flatten := by
  induction splits with
  | nil => rfl
  | cons s rest ih =>
    rw [List.filter_cons]
    by_cases h : (!(isAllWS s)) = true
    · rw [if_pos h, List.flatten_cons, List.flatten_cons, filterNW_append,
        filterNW_append, ih]
    · rw [if_neg h, List.flatten_cons, filterNW_append, ih]
      have hws : s.all pyWS = true := by
        have : isAllWS s = true := by
          cases hh : isAllWS s
          · rw [hh] at h; simp at h
          · rfl
        simpa [isAllWS] using this
      rw [filterNW_all_ws s hws]
      rfl

/-- The separator dispatch of `_split_recursive` preserves non-whitespace
content for every separator value. -/
theorem splits0_nw (sep : Text) (text : Text) :
    filterNW (if sep = sentinelSent then splitSent text
      else if sep = ['\n', '\n'] then splitPara text
      else if sep = ['\n'] then splitOnChar '\n' text
      else splitOnChar ' ' text).flatten = filterNW text := by
  by_cases h1 : sep = sentinelSent
  · rw [if_pos h1]
    exact splitSentF_nw text.length none text le_rfl
  · rw [if_neg h1]
    by_cases h2 : sep = ['\n', '\n']
    · rw [if_pos h2]
      exact splitParaF_nw text.length text le_rfl
    · rw [if_neg h2]
      by_cases h3 : sep = ['\n']
      · rw [if_pos h3]
        exact splitOnChar_nw '\n' (by decide) text
      · rw [if_neg h3]
        exact splitOnChar_nw ' ' (by decide) text

/-- The whole recursive splitter preserves non-whitespace content: at every
level the splitter removes only whitespace separators, whitespace-only pieces
are the only pieces dropped, rejoining inserts only whitespace, and the hard
cut is an exact partition. -/
theorem splitRecursive_nw (cs : Nat) (hcs : 0 < cs) :
    ∀ (seps : List Text) (text : Text),
      filterNW (splitRecursive cs seps text).flatten = filterNW text := by
  intro seps
  induction seps with
  | nil =>
    intro text
    unfold splitRecursive
    by_cases h : text.length ≤ cs
    · rw [if_pos h]
      simp
    · rw [if_neg h]
      unfold hardCut
      rw [hardCutF_flatten cs hcs text.length text le_rfl]
  | cons sep rest ih =>
    intro text
    unfold splitRecursive
    by_cases h : text.length ≤ cs
    · rw [if_pos h]
      simp
    · rw [if_neg h]
      dsimp only
      by_cases hle : (((if sep = sentinelSent then splitSent text
          else if sep = ['\n', '\n'] then splitPara text
          else if sep = ['\n'] then splitOnChar '\n' text
          else splitOnChar ' ' text).filter (fun s => !(isAllWS s))).length ≤ 1)
      · rw [if_pos hle]
        exact ih text
      · rw [if_neg hle]
        rw [packLoop_nw cs sep _ (fun p => ih p)]
        rw [filter_strip_nw]
        exact splits0_nw sep text

/-- The space/tab normalization touches only whitespace. -/
theorem normAux_nw : ∀ (l : Text) (b : Bool), filterNW (normAux b l) = filterNW l := by
  intro l
  induction l with
  | nil => intro b; rfl
  | cons c rest ih =>
    intro b
    unfold normAux
    by_cases h : (c = ' ' ∨ c = '\t')
    · rw [if_pos h]
      have hws : pyWS c = true := by
        rcases h with h | h <;> rw [h] <;> decide
      cases b with
      | true =>
        rw [if_pos rfl]
        rw [ih true, filterNW_cons_ws _ _ hws]
      | false =>
        rw [if_neg (by simp)]
        rw [filterNW_cons_ws ' ' _ (by decide), ih true, filterNW_cons_ws _ _ hws]
    · rw [if_neg h]
      cases hpc : pyWS c with
      | true => rw [filterNW_cons_ws _ _ hpc, filterNW_cons_ws _ _ hpc, ih false]
      | false => rw [filterNW_cons_nws _ _ hpc, filterNW_cons_nws _ _ hpc, ih false]

/-- Stripping leading whitespace touches only whitespace. -/
theorem dropWhile_ws_nw (l : Text) : filterNW (l.dropWhile pyWS) = filterNW l := by
  induction l with
  | nil => rfl
  | cons c rest ih =>
    rw [List.dropWhile_cons]
    by_cases h : pyWS c = true
    · rw [if_pos h, ih, filterNW_cons_ws _ _ h]
    · rw [if_neg h]

/-- Python `str.strip()` touches only whitespace. -/
theorem pyStrip_nw (l : Text) : filterNW (pyStrip l) = filterNW l := by
  unfold pyStrip
  calc filterNW ((((l.dropWhile pyWS).reverse).dropWhile pyWS).reverse)
      = (filterNW (((l.dropWhile pyWS).reverse).dropWhile pyWS)).reverse :=
        List.filter_reverse _ _
    _ = (filterNW ((l.dropWhile pyWS).reverse)).reverse := by rw [dropWhile_ws_nw]
    _ = ((filterNW (l.dropWhile pyWS)).reverse).reverse :=
        congrArg List.reverse (List.filter_reverse _ _)
    _ = filterNW (l.dropWhile pyWS) := List.reverse_reverse _
    _ = filterNW l := dropWhile_ws_nw l

/-- Claim C4 (amended): with zero overlap (the claim's "ignoring overlap
insertions"), concatenating the chunks of the recursive chunker reproduces
exactly the non-whitespace characters of the input, in order — no character
outside the whitespace separators is lost or duplicated; exact reconstruction
of the normalized text fails, however, because the separator characters
between chunks are dropped (see the counterexample). -/
theorem recChunkText_preserves_nonws (cs : Nat) (hcs : 0 < cs) (text : Text) :
    filterNW ((recChunkText cs 0 text).flatten) = filterNW text := by
  unfold recChunkText
  by_cases hws : isAllWS text = true
  · rw [if_pos hws]
    rw [show (([] : List Text)).flatten = [] from rfl, filterNW_nil]
    exact (filterNW_all_ws text (by simpa [isAllWS] using hws)).symm
  · rw [if_neg hws]
    dsimp only
    by_cases hfit : (pyStrip (normalizeSpaces text)).length ≤ cs
    · rw [if_pos hfit]
      have hflat : ([pyStrip (normalizeSpaces text)] : List Text).flatten =
          pyStrip (normalizeSpaces text) := by simp
      rw [hflat, pyStrip_nw]
      exact normAux_nw text false
    · rw [if_neg hfit]
      rw [if_neg (by simp)]
      rw [splitRecursive_nw cs hcs sepHierarchy (pyStrip (normalizeSpaces text))]
      rw [pyStrip_nw]
      exact normAux_nw text false

/-- The spec's own paragraph-split example input. -/
def c4text : Text := "123456789\n\n987654321".toList

/-- Claim C4 counterexample: on `"123456789\n\n987654321"` with
`chunk_size = 15` the recursive chunker returns
`["123456789", "987654321"]` (the spec's own example), whose concatenation
`"123456789987654321"` is not the normalized input — the `"\n\n"` separator
characters are lost, so concatenation does not reconstruct the normalized
text. -/
theorem recChunkText_loses_separator_cex :
    recChunkText 15 0 c4text = ["123456789".toList, "987654321".toList] ∧
    (recChunkText 15 0 c4text).flatten ≠ pyStrip (normalizeSpaces c4text) := by
  constructor
  · decide
  · decide

/-- Witness for C4's amended theorem at the spec's example input. -/
theorem recChunkText_preserves_nonws_w :
    filterNW ((recChunkText 15 0 c4text).flatten) = filterNW c4text :=
  recChunkText_preserves_nonws 15 (by decide) c4text

end Routstr
